import Mathlib

/-!
Verification development for the oemof-solph energy-system container
(`src/oemof/core/energy_system.py`).

The core under study is the lazily evaluated entity-grouping mechanism of
`EnergySystem` (`__init__`, `_regroup`, `add`, `groups`, `nodes`), plus the
`Region` and `Simulation` data holders.  Python state is embedded as explicit
state passing; a Python `dict` is embedded as a function to `Option`;
exceptions are embedded with `Except String`.

A central point of the embedding: in `EnergySystem.add` the source builds
`partial(self._regroup, entity, self.groups, self._groupings)`.  `partial`
evaluates its arguments eagerly, and `self.groups` is the forcing property, so
every `add` first forces the current deferred value (running the grouping
functions queued for the previously added entity) and only then stores a new
deferred computation holding exactly one entity.  The deferred value therefore
never chains more than one pending fold.  The model below reproduces this.
-/

namespace Oemof

variable {E G : Type}

/-- The `_groups` attribute of `EnergySystem` is either a concrete mapping
(a Python `dict`) or a callable `partial(self._regroup, entity, groups,
groupings)` whose three arguments were captured eagerly at `add` time. -/
inductive GroupsVal (E G : Type) where
  | materialized (m : G)
  | pending (entity : E) (captured : G)
      (groupings : List (E → G → Except String G))

/-- State of an `EnergySystem` instance: the entity list, the `_groups`
value and the `_groupings` list fixed at construction.  Grouping functions
are embedded as fallible mapping transformers, matching the source's
`g(entity, groups)` calls that mutate `groups` and may raise. -/
structure EnergySystem (E G : Type) where
  entities : List E
  _groups : GroupsVal E G
  _groupings : List (E → G → Except String G)

/-- `EnergySystem._regroup` (energy_system.py lines 145-149): apply each
grouping function to the entity and the mapping in list order, then return
the mapping; a raising grouping function aborts with the exception. -/
def _regroup (entity : E) (groups : G) :
    List (E → G → Except String G) → Except String G
  | [] => .ok groups
  | g :: gs =>
    match g entity groups with
    | .error msg => .error msg
    | .ok m => _regroup entity m gs

/-- One forcing step of the `_groups` value: a materialized mapping is
returned as is; a pending `partial` is called, which runs `_regroup` on its
captured arguments.  (`_regroup` returns a `dict`, which is not callable, so
the `while callable` loop of the `groups` property runs at most once.) -/
def GroupsVal.force : GroupsVal E G → Except String G
  | .materialized m => .ok m
  | .pending e g gs => _regroup e g gs

/-- The `groups` property (lines 158-162): force `_groups`, cache the
materialized mapping back into the state, and return it. -/
def EnergySystem.groups (s : EnergySystem E G) :
    Except String (G × EnergySystem E G) :=
  match s._groups.force with
  | .error msg => .error msg
  | .ok m => .ok (m, { s with _groups := .materialized m })

/-- `EnergySystem.add` (lines 151-156): append the entity, then build
`partial(self._regroup, entity, self.groups, self._groupings)`.  Evaluating
the argument `self.groups` forces the current deferred value; the new
`_groups` is a pending fold of the single new entity over the freshly
materialized mapping. -/
def EnergySystem.add (s : EnergySystem E G) (e : E) :
    Except String (EnergySystem E G) :=
  match s._groups.force with
  | .error msg => .error msg
  | .ok m =>
    .ok { entities := s.entities ++ [e]
          _groups := .pending e m s._groupings
          _groupings := s._groupings }

/-- `EnergySystem.__init__` (lines 129-143), restricted to the attributes
the grouping engine uses: start from an empty mapping (`self._groups = {}`)
and eagerly fold every initially supplied entity through every grouping
function (`for e in self.entities: for g in self._groupings: g(e,
self.groups)`); the `_groups` value stays a materialized `dict` throughout
construction. -/
def EnergySystem.init (ents : List E)
    (gs : List (E → G → Except String G)) (empty : G) :
    Except String (EnergySystem E G) :=
  match ents.foldlM (fun m e => _regroup e m gs) empty with
  | .error msg => .error msg
  | .ok m => .ok ⟨ents, .materialized m, gs⟩

/-- A sequence of `add` calls. -/
def EnergySystem.addAll (s : EnergySystem E G) :
    List E → Except String (EnergySystem E G)
  | [] => .ok s
  | e :: es => match s.add e with
    | .error msg => .error msg
    | .ok s' => s'.addAll es

/-- The `nodes` property getter (lines 164-166): returns `self.entities`. -/
def EnergySystem.nodes (s : EnergySystem E G) : List E :=
  s.entities

/-- The `nodes` property setter (lines 168-170): replaces `self.entities`
wholesale. -/
def EnergySystem.setNodes (s : EnergySystem E G) (v : List E) :
    EnergySystem E G :=
  { s with entities := v }

/-- The captured mapping argument of a pending `partial`, if the value is
pending. -/
def GroupsVal.captured? : GroupsVal E G → Option G
  | .materialized _ => none
  | .pending _ m _ => some m

/-- The entity argument of a pending `partial`, if the value is pending. -/
def GroupsVal.pendingEntity? : GroupsVal E G → Option E
  | .materialized _ => none
  | .pending e _ _ => some e

/-- Whether the `_groups` value is a materialized mapping. -/
def GroupsVal.isMaterialized : GroupsVal E G → Bool
  | .materialized _ => true
  | .pending _ _ _ => false

/-! ### Concrete entities and group mappings

Entities come from `oemof.core.network` (not under `src/`); the spec only
needs that an entity has a `uid` and an object identity, so an entity is
modelled as an identity tag plus a uid.  Group mappings are Python dicts
keyed (for the claims below) by uids. -/

/-- An entity: `eid` models Python object identity (`is`), `uid` is the
entity's uid attribute. -/
structure Entity where
  eid : Nat
  uid : Nat
deriving DecidableEq, Repr

/-- A value stored in the groups dict: the default uid grouping stores a
single entity, user groupings store sets of entities. -/
inductive Bucket where
  | single (e : Entity)
  | many (s : List Entity)
deriving DecidableEq, Repr

/-- A groups dict keyed by uids (and user group keys), embedded as a
function to `Option`. -/
def GMap := Nat → Option Bucket

/-- Empty dict. -/
def gEmpty : GMap := fun _ => none

/-- `dict` assignment `m[k] = b`. -/
def gUpdate (m : GMap) (k : Nat) (b : Bucket) : GMap :=
  fun k' => if k' = k then some b else m k'

/-- Modelled from the spec: `DEFAULT` (imported as `BY_UID`) from the
missing `oemof.groupings` module.  The spec says the default grouping maps
every entity to a singleton group keyed by its own uid using direct
assignment, so re-adding a uid silently replaces the stored value
(`groups[uid] is entity`, last writer wins). -/
def byUid : Entity → GMap → Except String GMap :=
  fun e m => .ok (gUpdate m e.uid (.single e))

/-- Insert an entity into an existing bucket, deduplicating, as Python set
insertion would.  The spec leaves a collision with a `single` bucket of the
default grouping undefined; the existing entity is kept as a set member. -/
def bucketInsert (b : Bucket) (e : Entity) : Bucket :=
  match b with
  | .single x => if e = x then .many [x] else .many [x, e]
  | .many s => if e ∈ s then .many s else .many (s ++ [e])

/-- Modelled from the spec: `Nodes` (imported as `Grouping`) from the
missing `oemof.groupings` module wraps a raw key function into a grouping
function.  Applying the wrapped grouping inserts the entity into a set
bucket under every key the function yields (creating the bucket as a set on
first use); a function yielding no keys gives the entity no membership
under this grouping. -/
def nodesWrap (f : Entity → List Nat) : Entity → GMap → Except String GMap :=
  fun e m => .ok ((f e).foldl
    (fun m' k =>
      gUpdate m' k (match m' k with
        | none => .many [e]
        | some b => bucketInsert b e)) m)

/-- A user-supplied element of the `groupings` keyword argument: either an
instance of the `Grouping` base class, used directly, or a raw key function
to be wrapped (`g if isinstance(g, GroupingBase) else Grouping(g)`). -/
inductive GroupingInput where
  | ready (g : Entity → GMap → Except String GMap)
  | raw (f : Entity → List Nat)

/-- Conversion of one user-supplied element, as in `__init__` line 137. -/
def toGrouping : GroupingInput → (Entity → GMap → Except String GMap)
  | .ready g => g
  | .raw f => nodesWrap f

/-- The `_groupings` list built in `__init__` lines 136-138:
`[BY_UID] + [g if isinstance(g, GroupingBase) else Grouping(g) for g in
kwargs.get('groupings', [])]`. -/
def configure (user : List GroupingInput) :
    List (Entity → GMap → Except String GMap) :=
  byUid :: user.map toGrouping

/-! ### Region (energy_system.py lines 211-281)

`Region.add_entities` links entities and regions both ways; `Region.code`
derives and caches a short code from the region name.  Entities and regions
are referred to by identity tags; each entity's `regions` attribute is a
list of region tags. -/

/-- The entity/region link state seen by `Region.add_entities`: the region's
own `entities` list and, for every entity tag, that entity's `regions`
list. -/
structure RegionLinks where
  entities : List Nat
  regionsOf : Nat → List Nat

/-- One iteration of the loop in `add_entities` (lines 269-271): append the
region to `entity.regions` unless it is already present. -/
def backRef (rid : Nat) (st : RegionLinks) (e : Nat) : RegionLinks :=
  if rid ∈ st.regionsOf e then st
  else { st with regionsOf := fun e' =>
          if e' = e then st.regionsOf e ++ [rid] else st.regionsOf e' }

/-- `Region.add_entities` (lines 253-271): `self.entities.extend(entities)`
followed by the back-reference loop over the added entities in order. -/
def addEntities (rid : Nat) (st : RegionLinks) (es : List Nat) : RegionLinks :=
  es.foldl (backRef rid) { st with entities := st.entities ++ es }

/-- `Region.__init__` and the cached-code state (lines 244-250): the name
and the `_code` attribute (`kwargs.get('code')`, possibly absent). -/
structure Region where
  name : List Char
  _code : Option (List Char)

/-- Python `name.replace('_', ' ')`. -/
def pyReplaceUnderscore (s : List Char) : List Char :=
  s.map fun c => if c = '_' then ' ' else c

/-- Helper for Python `s.split(' ', 1)`: the part before the first space
and, if a space occurs, everything after it. -/
def splitFirstSpace : List Char → List Char × Option (List Char)
  | [] => ([], none)
  | c :: rest =>
    if c = ' ' then ([], some rest)
    else
      let p := splitFirstSpace rest
      (c :: p.1, p.2)

/-- Python `s.split(' ', 1)`: one part when no space occurs, otherwise two. -/
def pySplitMax1 (s : List Char) : List (List Char) :=
  match splitFirstSpace s with
  | (a, none) => [a]
  | (a, some b) => [a, b]

/-- Python `part[:1].upper() + part[1:3]` (line 280). -/
def codeOfPart (p : List Char) : List Char :=
  (p.take 1).map Char.toUpper ++ (p.drop 1).take 2

/-- The code string built by the loop in `Region.code` (lines 277-280). -/
def deriveCode (name : List Char) : List Char :=
  (pySplitMax1 (pyReplaceUnderscore name)).foldl
    (fun acc p => acc ++ codeOfPart p) []

/-- The `Region.code` property (lines 273-281): return `_code` if set,
otherwise derive it from the name, cache it in `_code` and return it. -/
def Region.codeRead (r : Region) : List Char × Region :=
  match r._code with
  | some c => (c, r)
  | none =>
    let c := deriveCode r.name
    (c, { r with _code := some c })

/-! ### Simulation (energy_system.py lines 284-330) -/

/-- The keyword arguments accepted by `Simulation.__init__`; `none` models
an absent keyword (or an explicit `None`).  Timesteps are an opaque
sequence of timestep tags; option dictionaries are opaque association
lists. -/
structure SimKwargs where
  solver : Option String
  debug : Option Bool
  verbose : Option Bool
  objective_options : Option (List (String × String))
  duals : Option Bool
  timesteps : Option (List Nat)
  relaxed : Option Bool
  fast_build : Option Bool
  solve_kwargs : Option (List (String × String))

/-- A constructed `Simulation` object's attributes. -/
structure Simulation where
  solver : String
  debug : Bool
  verbose : Bool
  objective_options : List (String × String)
  duals : Bool
  timesteps : List Nat
  relaxed : Bool
  fast_build : Bool
  solve_kwargs : List (String × String)
deriving DecidableEq, Repr

/-- `Simulation.__init__` (lines 317-330): read every keyword with its
default (`'glpk'` for the solver, `False` for the flags, `{}` for the
option dicts, `None` for the timesteps), then raise
`ValueError('No timesteps defined!')` exactly when `self.timesteps is
None`. -/
def Simulation.init (kw : SimKwargs) : Except String Simulation :=
  match kw.timesteps with
  | none => .error "No timesteps defined!"
  | some ts =>
    .ok { solver := kw.solver.getD "glpk"
          debug := kw.debug.getD false
          verbose := kw.verbose.getD false
          objective_options := kw.objective_options.getD []
          duals := kw.duals.getD false
          timesteps := ts
          relaxed := kw.relaxed.getD false
          fast_build := kw.fast_build.getD false
          solve_kwargs := kw.solve_kwargs.getD [] }

/-! ### Derived pipelines and instrumentation used by the theorems -/

/-- Keyword arguments supplying an explicitly empty timestep list and
nothing else. -/
def kwEmptyTimesteps : SimKwargs :=
  ⟨none, none, none, none, none, some [], none, none, none⟩

/-- An instrumented grouping function over a counter: each invocation
increments the counter, so the counter value records how many grouping
calls have happened. -/
def countingGrouping : Unit → Nat → Except String Nat :=
  fun _ n => .ok (n + 1)

/-- Two `add` calls with no intervening `groups` read, on a fresh system
with the counting grouping; returns the final `_groups` value. -/
def c2Run : Except String (GroupsVal Unit Nat) :=
  match EnergySystem.init ([] : List Unit) [countingGrouping] 0 with
  | .error msg => .error msg
  | .ok s0 =>
    match s0.add () with
    | .error msg => .error msg
    | .ok s1 =>
      match s1.add () with
      | .error msg => .error msg
      | .ok s2 => .ok s2._groups

/-- A grouping function that raises on every entity. -/
def boomGrouping : Unit → Unit → Except String Unit :=
  fun _ _ => .error "boom"

/-- First `add` on a fresh system whose only user grouping raises. -/
def c3FirstAdd : Except String (EnergySystem Unit Unit) :=
  match EnergySystem.init ([] : List Unit) [boomGrouping] () with
  | .error msg => .error msg
  | .ok s0 => s0.add ()

/-- A second `add`, with no `groups` read in between. -/
def c3SecondAdd : Except String (EnergySystem Unit Unit) :=
  match c3FirstAdd with
  | .error msg => .error msg
  | .ok s1 => s1.add ()

/-- The most recently added entity carrying uid `u` in an addition
sequence (additions listed in order, earliest first). -/
def lastWithUid : List Entity → Nat → Option Entity
  | [], _ => none
  | e :: es, u =>
    match lastWithUid es u with
    | some e' => some e'
    | none => if e.uid = u then some e else none

/-- Pure left fold of the default uid grouping over an addition sequence. -/
def uidFold (m : GMap) (es : List Entity) : GMap :=
  es.foldl (fun m' e => gUpdate m' e.uid (.single e)) m

/-- Read `groups` and keep the mapping only. -/
def readMap (s : EnergySystem E G) : Except String G :=
  match s.groups with
  | .error msg => .error msg
  | .ok (m, _) => .ok m

/-- Add all entities, then read `groups` once. -/
def addAllThenRead (s : EnergySystem E G) (es : List E) : Except String G :=
  match s.addAll es with
  | .error msg => .error msg
  | .ok s' => readMap s'

/-- Add the entities one at a time, reading `groups` after every single
addition (the final state is the one after the last read). -/
def addReadEach (s : EnergySystem E G) :
    List E → Except String (EnergySystem E G)
  | [] => .ok s
  | e :: es =>
    match s.add e with
    | .error msg => .error msg
    | .ok s1 =>
      match s1.groups with
      | .error msg => .error msg
      | .ok (_, s2) => addReadEach s2 es

/-- Read `groups` after every addition, returning the final mapping. -/
def eachThenRead (s : EnergySystem E G) (es : List E) : Except String G :=
  match addReadEach s es with
  | .error msg => .error msg
  | .ok s' => readMap s'

/-- A grouping function that always succeeds and never unbinds a key. -/
def Insertional (g : Entity → GMap → Except String GMap) : Prop :=
  ∀ e m, ∃ m', g e m = .ok m' ∧ ∀ u, m u ≠ none → m' u ≠ none

/-- The `_groupings` list configured from raw key functions only. -/
def rawGroupings (fs : List (Entity → List Nat)) :
    List (Entity → GMap → Except String GMap) :=
  configure (fs.map GroupingInput.raw)

/-! ### Helper lemmas on the lazy grouping machine -/

theorem force_materialized (m : G) :
    (GroupsVal.materialized m : GroupsVal E G).force = .ok m := rfl

theorem force_pending (e : E) (m : G)
    (gs : List (E → G → Except String G)) :
    (GroupsVal.pending e m gs).force = _regroup e m gs := rfl

/-- Reading `groups` on a materialized state returns the mapping and leaves
the state unchanged. -/
theorem groups_of_materialized (s : EnergySystem E G) (m : G)
    (h : s._groups = .materialized m) : s.groups = .ok (m, s) := by
  cases s
  cases h
  rfl

/-- `add` on a state whose `_groups` forces successfully: append the entity
and store a pending fold of exactly that entity over the forced mapping. -/
theorem add_of_force_ok (s : EnergySystem E G) (m : G) (e : E)
    (h : s._groups.force = .ok m) :
    s.add e = .ok ⟨s.entities ++ [e], .pending e m s._groupings,
                   s._groupings⟩ := by
  unfold EnergySystem.add
  rw [h]

/-- `add` propagates a forcing failure. -/
theorem add_of_force_error (s : EnergySystem E G) (msg : String) (e : E)
    (h : s._groups.force = .error msg) : s.add e = .error msg := by
  unfold EnergySystem.add
  rw [h]

/-- `groups` propagates a forcing failure. -/
theorem groups_of_force_error (s : EnergySystem E G) (msg : String)
    (h : s._groups.force = .error msg) : s.groups = .error msg := by
  unfold EnergySystem.groups
  rw [h]

/-- `groups` materializes a successful forcing. -/
theorem groups_of_force_ok (s : EnergySystem E G) (m : G)
    (h : s._groups.force = .ok m) :
    s.groups = .ok (m, { s with _groups := .materialized m }) := by
  unfold EnergySystem.groups
  rw [h]

/-- A successful `groups` read changes nothing that `add` looks at: after
reading, `add` behaves exactly as it would have on the unread state. -/
theorem add_after_read (s t : EnergySystem E G) (m : G)
    (h : s.groups = .ok (m, t)) (e : E) : t.add e = s.add e := by
  unfold EnergySystem.groups at h
  cases hf : s._groups.force with
  | error msg => rw [hf] at h; cases h
  | ok m' =>
    rw [hf] at h
    cases h
    rw [add_of_force_ok _ _ _ hf, add_of_force_ok]
    rfl

/-! ### C7 — `nodes` aliases `entities` -/

/-- C7: `nodes` is an alias of `entities`: reading `nodes` returns the same
entity sequence as `entities`, and assigning `nodes` replaces the entity
list wholesale while leaving `_groups` (the group mapping value) and
`_groupings` untouched, so no grouping function is applied to the assigned
entities. -/
theorem nodes_aliases_entities (s : EnergySystem E G) (v : List E) :
    s.nodes = s.entities ∧
    (s.setNodes v).entities = v ∧
    (s.setNodes v).nodes = v ∧
    (s.setNodes v)._groups = s._groups ∧
    (s.setNodes v)._groupings = s._groupings :=
  ⟨rfl, rfl, rfl, rfl, rfl⟩

/-! ### C5 — Simulation construction -/

/-- C5 counterexample: the claim says constructing a `Simulation` with an
empty timestep sequence fails, but `Simulation.__init__` only checks
`self.timesteps is None`, so `timesteps=[]` constructs successfully (with
default solver and flags). -/
theorem simulation_empty_timesteps_succeeds :
    Simulation.init kwEmptyTimesteps =
      .ok ⟨"glpk", false, false, [], false, [], false, false, []⟩ := rfl

/-- C5 amended: construction fails (with `ValueError('No timesteps
defined!')`) exactly when the timestep keyword is missing (`None`); any
supplied timestep sequence — including an empty one — succeeds, preserving
all other supplied fields verbatim with default solver `"glpk"`, default
flags `False` and default empty option dicts. -/
theorem simulation_init_spec (kw : SimKwargs) :
    (kw.timesteps = none →
      Simulation.init kw = .error "No timesteps defined!") ∧
    (∀ ts, kw.timesteps = some ts →
      Simulation.init kw =
        .ok ⟨kw.solver.getD "glpk", kw.debug.getD false,
             kw.verbose.getD false, kw.objective_options.getD [],
             kw.duals.getD false, ts, kw.relaxed.getD false,
             kw.fast_build.getD false, kw.solve_kwargs.getD []⟩) := by
  constructor
  · intro h
    unfold Simulation.init
    rw [h]
  · intro ts h
    unfold Simulation.init
    rw [h]

/-- Witness for the amended C5 theorem at two concrete keyword sets. -/
theorem simulation_init_spec_witness :
    Simulation.init ⟨some "gurobi", none, none, none, none, none, none,
                     none, none⟩ = .error "No timesteps defined!" ∧
    Simulation.init ⟨some "gurobi", some true, none, none, none,
                     some [3, 4], none, none, none⟩ =
      .ok ⟨"gurobi", true, false, [], false, [3, 4], false, false, []⟩ := by
  constructor
  · exact (simulation_init_spec _).1 rfl
  · exact (simulation_init_spec _).2 [3, 4] rfl

/-! ### C2 — the deferred-value state machine -/

/-- C2 counterexample: the claim says `add` never invokes a grouping
function at add time (PENDING→PENDING just extends the chain).  If that
held, after two `add` calls and no read the counting grouping would never
have run, and the captured counter would still be `0`.  In fact the second
`add` evaluates `self.groups` while building its `partial`, forcing the
first pending fold, so the captured counter is `1`. -/
theorem add_invokes_grouping_at_add_time :
    c2Run.map GroupsVal.captured? = .ok (some 1) ∧
    c2Run.map GroupsVal.captured? ≠ .ok (some 0) := by
  constructor
  · rfl
  · intro h
    rw [show c2Run.map GroupsVal.captured? = .ok (some 1) from rfl] at h
    simp at h

/-- C2 amended: every `add` first forces the current `_groups` value
(running, at add time, the grouping folds queued for the previously added
entity when the state is PENDING) and then stores a PENDING value holding
exactly the one newly added entity over the freshly materialized mapping;
every `groups` read forces a PENDING value to MATERIALIZED and is a no-op
on a MATERIALIZED state. -/
theorem groups_state_machine (s : EnergySystem E G) (e : E) :
    (∀ m, s._groups = .materialized m →
      s.add e = .ok ⟨s.entities ++ [e], .pending e m s._groupings,
                     s._groupings⟩) ∧
    (∀ e' m' gs', s._groups = .pending e' m' gs' →
      s.add e = match _regroup e' m' gs' with
        | .error msg => .error msg
        | .ok m2 => .ok ⟨s.entities ++ [e], .pending e m2 s._groupings,
                         s._groupings⟩) ∧
    (∀ m, s._groups = .materialized m → s.groups = .ok (m, s)) ∧
    (∀ e' m' gs', s._groups = .pending e' m' gs' →
      s.groups = match _regroup e' m' gs' with
        | .error msg => .error msg
        | .ok m2 => .ok (m2, { s with _groups := .materialized m2 })) := by
  refine ⟨?_, ?_, ?_, ?_⟩
  · intro m h
    exact add_of_force_ok s m e (by rw [h]; rfl)
  · intro e' m' gs' h
    cases hr : _regroup e' m' gs' with
    | error msg => exact add_of_force_error s msg e (by rw [h]; exact hr)
    | ok m2 => exact add_of_force_ok s m2 e (by rw [h]; exact hr)
  · intro m h
    exact groups_of_materialized s m h
  · intro e' m' gs' h
    cases hr : _regroup e' m' gs' with
    | error msg => exact groups_of_force_error s msg (by rw [h]; exact hr)
    | ok m2 => exact groups_of_force_ok s m2 (by rw [h]; exact hr)

/-- Witness for the amended C2 theorem: the two transitions on concrete
states with the counting grouping. -/
theorem groups_state_machine_witness :
    (⟨[], .materialized 0, [countingGrouping]⟩ :
        EnergySystem Unit Nat).add () =
      .ok ⟨[()], .pending () 0 [countingGrouping], [countingGrouping]⟩ ∧
    (⟨[()], .pending () 0 [countingGrouping], [countingGrouping]⟩ :
        EnergySystem Unit Nat).add () =
      .ok ⟨[(), ()], .pending () 1 [countingGrouping],
           [countingGrouping]⟩ := by
  constructor
  · exact (groups_state_machine _ ()).1 0 rfl
  · have h := (groups_state_machine
      (⟨[()], .pending () 0 [countingGrouping], [countingGrouping]⟩ :
        EnergySystem Unit Nat) ()).2.1 () 0 [countingGrouping] rfl
    exact h

/-! ### C3 — failure timing of raising grouping functions -/

/-- C3 counterexample: the claim says the exception propagates only when
`groups` is next read and that `add` never forces.  With a raising
grouping, the first `add` succeeds, but the second `add` — with no
`groups` read anywhere — already raises `boom`, because `add` eagerly
evaluates `self.groups` while building its `partial`. -/
theorem exception_propagates_at_second_add :
    (∃ s1, c3FirstAdd = .ok s1) ∧ c3SecondAdd = .error "boom" :=
  ⟨⟨_, rfl⟩, rfl⟩

/-- C3 amended: if the grouping functions raise on entity `e` (over the
current materialized mapping), `add(e)` itself still succeeds — grouping
functions for `e` are not invoked during its own `add` — and the exception
propagates at the next forcing of the deferred value, which is either the
next `groups` read or the next `add` (which forces eagerly). -/
theorem deferred_failure_surfaces_at_next_force (s : EnergySystem E G)
    (m : G) (e : E) (msg : String) (hmat : s._groups = .materialized m)
    (hfail : _regroup e m s._groupings = .error msg) :
    ∃ s', s.add e = .ok s' ∧ s'.groups = .error msg ∧
      ∀ e2, s'.add e2 = .error msg := by
  refine ⟨⟨s.entities ++ [e], .pending e m s._groupings, s._groupings⟩,
    add_of_force_ok s m e (by rw [hmat]; rfl), ?_, ?_⟩
  · exact groups_of_force_error _ msg hfail
  · intro e2
    exact add_of_force_error _ msg e2 hfail

/-- Witness for the amended C3 theorem with the raising grouping. -/
theorem deferred_failure_surfaces_witness :
    ∃ s', (⟨[], .materialized (), [boomGrouping]⟩ :
        EnergySystem Unit Unit).add () = .ok s' ∧
      s'.groups = .error "boom" ∧ s'.add () = .error "boom" := by
  obtain ⟨s', h1, h2, h3⟩ := deferred_failure_surfaces_at_next_force
    (⟨[], .materialized (), [boomGrouping]⟩ : EnergySystem Unit Unit)
    () () "boom" rfl rfl
  exact ⟨s', h1, h2, h3 ()⟩

/-! ### C6 — grouping configuration order -/

/-- C6: the configured `_groupings` list has the mandatory default uid
grouping as its first element, followed by the user-supplied elements in
their given order, each used directly when it is already a `Grouping`
instance and wrapped (`Nodes`) otherwise; `_regroup` applies the list to an
entity in exactly this order, with the default uid grouping acting first. -/
theorem groupings_default_first_in_order (user : List GroupingInput) :
    (configure user).length = user.length + 1 ∧
    (configure user).head? = some byUid ∧
    (∀ i, (configure user).get? (i + 1) = (user.get? i).map toGrouping) ∧
    (∀ g, toGrouping (.ready g) = g) ∧
    (∀ f, toGrouping (.raw f) = nodesWrap f) ∧
    (∀ (e : Entity) (m : GMap) g gs,
      _regroup e m (g :: gs) = match g e m with
        | .error msg => .error msg
        | .ok m' => _regroup e m' gs) ∧
    (∀ (e : Entity) (m : GMap),
      _regroup e m (configure user) =
        _regroup e (gUpdate m e.uid (.single e)) (user.map toGrouping)) := by
  refine ⟨by simp [configure], rfl, ?_, fun g => rfl, fun f => rfl,
    fun e m g gs => ?_, fun e m => rfl⟩
  · intro i
    simp [configure]
  · cases hg : g e m <;> simp [_regroup, hg]

/-! ### C9 — Region.add_entities back-references -/

theorem backRef_entities (rid : Nat) (st : RegionLinks) (e : Nat) :
    (backRef rid st e).entities = st.entities := by
  unfold backRef
  split <;> rfl

theorem foldl_backRef_entities (rid : Nat) (es : List Nat)
    (st : RegionLinks) :
    (es.foldl (backRef rid) st).entities = st.entities := by
  induction es generalizing st with
  | nil => rfl
  | cons a es ih => rw [List.foldl_cons, ih, backRef_entities]

theorem foldl_backRef_regionsOf (rid : Nat) (es : List Nat)
    (st : RegionLinks) (e : Nat) :
    (es.foldl (backRef rid) st).regionsOf e =
      if e ∈ es ∧ rid ∉ st.regionsOf e
      then st.regionsOf e ++ [rid] else st.regionsOf e := by
  induction es generalizing st with
  | nil => simp
  | cons a es ih =>
    rw [List.foldl_cons, ih]
    unfold backRef
    by_cases ha : rid ∈ st.regionsOf a
    · rw [if_pos ha]
      by_cases he : e = a
      · subst he
        simp [ha]
      · simp [List.mem_cons, he]
    · rw [if_neg ha]
      by_cases he : e = a
      · subst he
        simp [ha, List.mem_cons]
      · simp [List.mem_cons, he]

/-- C9: `Region.add_entities` appends every passed entity to the region's
entity list, and back-references the region on each passed entity's
`regions` list, appending the region exactly when it was not already
present there. -/
theorem add_entities_backrefs (rid : Nat) (st : RegionLinks)
    (es : List Nat) :
    (addEntities rid st es).entities = st.entities ++ es ∧
    (∀ e, e ∈ es → rid ∈ (addEntities rid st es).regionsOf e) ∧
    (∀ e, (addEntities rid st es).regionsOf e =
      if e ∈ es ∧ rid ∉ st.regionsOf e
      then st.regionsOf e ++ [rid] else st.regionsOf e) := by
  unfold addEntities
  refine ⟨by rw [foldl_backRef_entities], ?_, ?_⟩
  · intro e he
    rw [foldl_backRef_regionsOf]
    by_cases hre : rid ∈ st.regionsOf e
    · simp [he, hre]
    · simp [he, hre]
  · intro e
    rw [foldl_backRef_regionsOf]

/-- Witness for C9 on a concrete region and entity list (the duplicate
entity `4` receives the back-reference only once). -/
theorem add_entities_backrefs_witness :
    (addEntities 1 ⟨[], fun _ => []⟩ [4, 4, 5]).entities = [4, 4, 5] ∧
    (addEntities 1 ⟨[], fun _ => []⟩ [4, 4, 5]).regionsOf 4 = [1] ∧
    1 ∈ (addEntities 1 ⟨[], fun _ => []⟩ [4, 4, 5]).regionsOf 5 ∧
    (addEntities 1 ⟨[], fun _ => []⟩ [4, 4, 5]).regionsOf 6 = [] := by
  obtain ⟨h1, h2, h3⟩ := add_entities_backrefs 1 ⟨[], fun _ => []⟩ [4, 4, 5]
  refine ⟨h1, ?_, h2 5 (by simp), ?_⟩
  · rw [h3 4]
    simp
  · rw [h3 6]
    simp

/-! ### C10 — Region.code derivation and caching -/

theorem foldl_append_codeOfPart (l : List (List Char)) (acc : List Char) :
    l.foldl (fun a p => a ++ codeOfPart p) acc =
      acc ++ (l.map codeOfPart).flatten := by
  induction l generalizing acc with
  | nil => simp
  | cons p l ih => simp [ih]

theorem pySplitMax1_length_le (s : List Char) :
    (pySplitMax1 s).length ≤ 2 := by
  unfold pySplitMax1
  cases h : splitFirstSpace s with
  | mk a b => cases b <;> simp

/-- C10: `Region.code` is computed at most once and cached.  A code
supplied at construction is returned verbatim with the state unchanged (the
name is never consulted — the result is the same for every name); with no
supplied code, the first read derives the code from the name (at most two
name parts, each contributing its first character uppercased plus its next
two characters) and caches it, and a subsequent read returns the cached
string even after the name has changed. -/
theorem region_code_cached (name name2 c0 : List Char) :
    Region.codeRead ⟨name, some c0⟩ = (c0, ⟨name, some c0⟩) ∧
    (name ≠ [] →
      Region.codeRead ⟨name, none⟩ =
        (deriveCode name, ⟨name, some (deriveCode name)⟩)) ∧
    (pySplitMax1 (pyReplaceUnderscore name)).length ≤ 2 ∧
    deriveCode name =
      ((pySplitMax1 (pyReplaceUnderscore name)).map codeOfPart).flatten ∧
    Region.codeRead
        { (Region.codeRead ⟨name, none⟩).2 with name := name2 } =
      ((Region.codeRead ⟨name, none⟩).1, ⟨name2, some (deriveCode name)⟩) :=
  ⟨rfl, fun _ => rfl, pySplitMax1_length_le _,
   foldl_append_codeOfPart _ [], rfl⟩

/-- Witness for C10 on concrete names: supplied code `"XY"` wins over the
name, a missing code is derived (`"north_rhine"` gives `"NorRhi"`) and
stays cached after the name changes to `"berlin"`. -/
theorem region_code_cached_witness :
    Region.codeRead ⟨"north_rhine".data, some "XY".data⟩ =
      ("XY".data, ⟨"north_rhine".data, some "XY".data⟩) ∧
    Region.codeRead ⟨"north_rhine".data, none⟩ =
      ("NorRhi".data, ⟨"north_rhine".data, some "NorRhi".data⟩) ∧
    Region.codeRead
        { (Region.codeRead ⟨"north_rhine".data, none⟩).2 with
          name := "berlin".data } =
      ("NorRhi".data, ⟨"berlin".data, some "NorRhi".data⟩) := by
  obtain ⟨h1, h2, _, _, h5⟩ :=
    region_code_cached "north_rhine".data "berlin".data "XY".data
  have hd : deriveCode "north_rhine".data = "NorRhi".data := by decide
  refine ⟨h1, ?_, ?_⟩
  · rw [h2 (by decide)]
    rw [hd]
  · rw [h5]
    rw [hd]
    rw [show (Region.codeRead ⟨"north_rhine".data, none⟩).1 =
      deriveCode "north_rhine".data from rfl, hd]

/-! ### C1 — default uid grouping holds the most recently added entity -/

/-- `addAll` on the empty list. -/
theorem addAll_nil (s : EnergySystem E G) : s.addAll [] = .ok s := rfl

/-- `addAll` unfolding on a cons. -/
theorem addAll_cons (s : EnergySystem E G) (e : E) (es : List E) :
    s.addAll (e :: es) = match s.add e with
      | .error msg => .error msg
      | .ok s1 => s1.addAll es := rfl

/-- Running `addAll` on a system whose only grouping is the default uid
grouping never fails and leaves a deferred value that forces to the uid
fold of the added entities. -/
theorem addAll_byUid (es : List Entity) (s : EnergySystem Entity GMap)
    (m : GMap) (hgs : s._groupings = [byUid])
    (hf : s._groups.force = .ok m) :
    ∃ s', s.addAll es = .ok s' ∧ s'._groupings = [byUid] ∧
      s'._groups.force = .ok (uidFold m es) ∧
      s'.entities = s.entities ++ es := by
  induction es generalizing s m with
  | nil =>
    refine ⟨s, rfl, hgs, ?_, by simp⟩
    exact hf
  | cons e es ih =>
    have hadd := add_of_force_ok s m e hf
    have hf1 : (GroupsVal.pending e m s._groupings).force =
        .ok (gUpdate m e.uid (.single e)) := by
      rw [force_pending, hgs]
      rfl
    obtain ⟨s', h1, h2, h3, h4⟩ :=
      ih ⟨s.entities ++ [e], .pending e m s._groupings, s._groupings⟩
        (gUpdate m e.uid (.single e)) hgs hf1
    refine ⟨s', ?_, h2, h3, ?_⟩
    · rw [addAll_cons, hadd]
      exact h1
    · rw [h4]
      simp

/-- Looking up the uid fold: the bucket under `u` is the most recently
folded entity with uid `u`, and keys never touched keep their old value. -/
theorem uidFold_lookup (es : List Entity) (m : GMap) (u : Nat) :
    uidFold m es u = match lastWithUid es u with
      | some e => some (.single e)
      | none => m u := by
  induction es generalizing m with
  | nil => rfl
  | cons e es ih =>
    rw [show uidFold m (e :: es) =
      uidFold (gUpdate m e.uid (.single e)) es from rfl, ih]
    cases h : lastWithUid es u with
    | some e' => simp [lastWithUid, h]
    | none =>
      by_cases he : e.uid = u
      · subst he
        simp [lastWithUid, h, gUpdate]
      · simp [lastWithUid, h, gUpdate, he, Ne.symm he]

/-- Every added entity's uid is carried by some entity in the sequence, so
`lastWithUid` finds one. -/
theorem lastWithUid_isSome (es : List Entity) (e : Entity) (he : e ∈ es) :
    (lastWithUid es e.uid).isSome := by
  induction es with
  | nil => cases he
  | cons a es ih =>
    rcases List.mem_cons.mp he with h | h
    · subst h
      cases hl : lastWithUid es e.uid with
      | some e' => simp [lastWithUid, hl]
      | none => simp [lastWithUid, hl]
    · have hs := ih h
      cases hl : lastWithUid es e.uid with
      | some e' => simp [lastWithUid, hl]
      | none => rw [hl] at hs; cases hs

/-- What `lastWithUid` returns is a member of the sequence with the looked
up uid. -/
theorem lastWithUid_mem (es : List Entity) (u : Nat) (e' : Entity)
    (h : lastWithUid es u = some e') : e' ∈ es ∧ e'.uid = u := by
  induction es with
  | nil => cases h
  | cons a es ih =>
    rw [lastWithUid] at h
    cases hl : lastWithUid es u with
    | some x =>
      rw [hl] at h
      cases h
      obtain ⟨h1, h2⟩ := ih hl
      exact ⟨List.mem_cons_of_mem _ h1, h2⟩
    | none =>
      rw [hl] at h
      by_cases ha : a.uid = u
      · rw [if_pos ha] at h
        cases h
        exact ⟨List.mem_cons_self _ _, ha⟩
      · rw [if_neg ha] at h
        cases h

/-- C1: with only the default uid grouping active, adding any sequence of
entities and then reading `groups` yields a mapping in which the bucket
under each uid `u` is exactly the most recently added entity with uid `u`:
every added entity's uid is bound, and an entity whose uid is not shared is
itself the stored value. -/
theorem groups_by_uid_holds_last_added (es : List Entity) :
    ∃ s₀ s m s',
      EnergySystem.init ([] : List Entity) [byUid] gEmpty = .ok s₀ ∧
      s₀.addAll es = .ok s ∧
      s.groups = .ok (m, s') ∧
      (∀ u, m u = match lastWithUid es u with
        | some e => some (.single e)
        | none => none) ∧
      (∀ e, e ∈ es → ∃ e', m e.uid = some (.single e') ∧ e'.uid = e.uid ∧
        e' ∈ es) ∧
      (∀ e, e ∈ es → (∀ e2, e2 ∈ es → e2.uid = e.uid → e2 = e) →
        m e.uid = some (.single e)) := by
  obtain ⟨s, h1, h2, h3, _⟩ := addAll_byUid es
    ⟨[], .materialized gEmpty, [byUid]⟩ gEmpty rfl rfl
  have hchar : ∀ u, uidFold gEmpty es u = match lastWithUid es u with
      | some e => some (.single e)
      | none => none := by
    intro u
    rw [uidFold_lookup]
    cases lastWithUid es u <;> rfl
  refine ⟨⟨[], .materialized gEmpty, [byUid]⟩, s, uidFold gEmpty es,
    { s with _groups := .materialized (uidFold gEmpty es) }, rfl, h1,
    groups_of_force_ok s _ h3, hchar, ?_, ?_⟩
  · intro e he
    have hs := lastWithUid_isSome es e he
    cases hl : lastWithUid es e.uid with
    | none => rw [hl] at hs; cases hs
    | some e' =>
      obtain ⟨hm, hu⟩ := lastWithUid_mem es e.uid e' hl
      refine ⟨e', ?_, hu, hm⟩
      rw [hchar e.uid, hl]
  · intro e he huniq
    have hs := lastWithUid_isSome es e he
    cases hl : lastWithUid es e.uid with
    | none => rw [hl] at hs; cases hs
    | some e' =>
      obtain ⟨hm, hu⟩ := lastWithUid_mem es e.uid e' hl
      have heq : e' = e := huniq e' hm hu
      rw [hchar e.uid, hl, heq]

/-- Witness for C1: uid `5` is added twice; the mapping holds the more
recent entity under `5`, and the unshared uid `7` holds its own entity. -/
theorem groups_by_uid_witness :
    ∃ s₀ s m s',
      EnergySystem.init ([] : List Entity) [byUid] gEmpty = .ok s₀ ∧
      s₀.addAll [⟨0, 5⟩, ⟨1, 5⟩, ⟨2, 7⟩] = .ok s ∧
      s.groups = .ok (m, s') ∧
      m 5 = some (.single ⟨1, 5⟩) ∧
      m 7 = some (.single ⟨2, 7⟩) ∧
      m 9 = none := by
  obtain ⟨s₀, s, m, s', h1, h2, h3, h4, _, _⟩ :=
    groups_by_uid_holds_last_added [⟨0, 5⟩, ⟨1, 5⟩, ⟨2, 7⟩]
  refine ⟨s₀, s, m, s', h1, h2, h3, ?_, ?_, ?_⟩
  · rw [h4 5]
    rfl
  · rw [h4 7]
    rfl
  · rw [h4 9]
    rfl

/-! ### C4 — confluence of interleaving reads with additions -/

/-- Unfolding `addReadEach` over a cons. -/
theorem addReadEach_cons (s : EnergySystem E G) (e : E) (es : List E) :
    addReadEach s (e :: es) = match s.add e with
      | .error msg => .error msg
      | .ok s1 => match s1.groups with
        | .error msg => .error msg
        | .ok (_, s2) => addReadEach s2 es := rfl

/-- Destructing a successful `groups` read: the deferred value forced to
the returned mapping and the cached state stores it materialized. -/
theorem groups_ok_dest (s t : EnergySystem E G) (m : G)
    (h : s.groups = .ok (m, t)) :
    s._groups.force = .ok m ∧
      t = { s with _groups := .materialized m } := by
  unfold EnergySystem.groups at h
  cases hf : s._groups.force with
  | error msg => rw [hf] at h; cases h
  | ok m' =>
    rw [hf] at h
    cases h
    exact ⟨rfl, rfl⟩

/-- `addAllThenRead` on the empty list is a plain read. -/
theorem addAllThenRead_nil (s : EnergySystem E G) :
    addAllThenRead s [] = readMap s := rfl

/-- A failed forcing makes a plain read fail. -/
theorem readMap_force_error (s : EnergySystem E G) (msg : String)
    (h : s._groups.force = .error msg) : readMap s = .error msg := by
  unfold readMap
  rw [groups_of_force_error s msg h]

/-- A state whose deferred value fails to force makes the whole
add-then-read pipeline fail with that error, whatever is added next. -/
theorem addAllThenRead_force_error (s : EnergySystem E G) (es : List E)
    (msg : String) (h : s._groups.force = .error msg) :
    addAllThenRead s es = .error msg := by
  cases es with
  | nil =>
    rw [addAllThenRead_nil]
    exact readMap_force_error s msg h
  | cons e es =>
    unfold addAllThenRead
    rw [addAll_cons, add_of_force_error s msg e h]

/-- Unfolding `addAllThenRead` over a cons. -/
theorem addAllThenRead_cons (s : EnergySystem E G) (e : E) (es : List E) :
    addAllThenRead s (e :: es) = match s.add e with
      | .error msg => .error msg
      | .ok s1 => addAllThenRead s1 es := by
  cases hadd : s.add e with
  | error msg =>
    unfold addAllThenRead
    rw [addAll_cons, hadd]
  | ok s1 =>
    unfold addAllThenRead
    rw [addAll_cons, hadd]

/-- A successful `groups` read in the middle of the pipeline does not
change the final mapping. -/
theorem addAllThenRead_read (s t : EnergySystem E G) (m : G) (es : List E)
    (h : s.groups = .ok (m, t)) :
    addAllThenRead s es = addAllThenRead t es := by
  obtain ⟨hf, ht⟩ := groups_ok_dest s t m h
  cases es with
  | nil =>
    rw [addAllThenRead_nil, addAllThenRead_nil]
    unfold readMap
    rw [h, groups_of_materialized t m (by rw [ht])]
  | cons e es =>
    rw [addAllThenRead_cons, addAllThenRead_cons, add_after_read s t m h e]

/-- C4: for every starting state and every sequence of entities, adding
them all and reading `groups` once yields the same result (mapping or
error) as reading `groups` after every single addition — interleaved reads
never change the resulting mapping. -/
theorem interleaved_reads_same_mapping (s : EnergySystem E G)
    (es : List E) :
    addAllThenRead s es = eachThenRead s es := by
  induction es generalizing s with
  | nil => rfl
  | cons e es ih =>
    have hrhs : eachThenRead s (e :: es) = match s.add e with
        | .error msg => .error msg
        | .ok s1 =>
          match s1.groups with
          | .error msg => .error msg
          | .ok (_, s2) => eachThenRead s2 es := by
      cases hadd : s.add e with
      | error msg =>
        unfold eachThenRead
        rw [addReadEach_cons]
        simp only [hadd]
      | ok s1 =>
        cases hg : s1.groups with
        | error msg =>
          unfold eachThenRead
          rw [addReadEach_cons]
          simp only [hadd, hg]
        | ok p =>
          obtain ⟨m, s2⟩ := p
          unfold eachThenRead
          rw [addReadEach_cons]
          simp only [hadd, hg]
    rw [addAllThenRead_cons, hrhs]
    cases hadd : s.add e with
    | error msg => rfl
    | ok s1 =>
      show addAllThenRead s1 es = match s1.groups with
        | .error msg => .error msg
        | .ok (_, s2) => eachThenRead s2 es
      cases hg : s1.groups with
      | error msg =>
        have hf : s1._groups.force = .error msg := by
          cases hf1 : s1._groups.force with
          | error m2 =>
            rw [groups_of_force_error s1 m2 hf1] at hg
            cases hg
            rfl
          | ok mm =>
            rw [groups_of_force_ok s1 mm hf1] at hg
            cases hg
        exact addAllThenRead_force_error s1 es msg hf
      | ok p =>
        obtain ⟨m, s2⟩ := p
        rw [addAllThenRead_read s1 s2 m es hg]
        exact ih s2

/-! ### C8 — the group mapping starts empty and only grows -/

/-- Unfolding `_regroup` over a cons. -/
theorem regroup_cons (e : E) (m : G) (g : E → G → Except String G)
    (gs : List (E → G → Except String G)) :
    _regroup e m (g :: gs) = match g e m with
      | .error msg => .error msg
      | .ok m' => _regroup e m' gs := by
  cases hg : g e m <;> simp [_regroup, hg]

/-- `dict` assignment binds the assigned key and never unbinds another. -/
theorem gUpdate_keeps (m : GMap) (k : Nat) (b : Bucket) (u : Nat)
    (h : m u ≠ none) : gUpdate m k b u ≠ none := by
  unfold gUpdate
  by_cases hu : u = k <;> simp [hu, h]

theorem byUid_insertional : Insertional byUid := by
  intro e m
  exact ⟨_, rfl, fun u h => gUpdate_keeps m e.uid _ u h⟩

theorem nodesFold_keeps (ks : List Nat) (e : Entity) (m : GMap) (u : Nat)
    (h : m u ≠ none) :
    (ks.foldl (fun m' k => gUpdate m' k (match m' k with
      | none => .many [e]
      | some b => bucketInsert b e)) m) u ≠ none := by
  induction ks generalizing m with
  | nil => exact h
  | cons k ks ih => exact ih _ (gUpdate_keeps m k _ u h)

theorem nodesWrap_insertional (f : Entity → List Nat) :
    Insertional (nodesWrap f) := by
  intro e m
  exact ⟨_, rfl, fun u h => nodesFold_keeps (f e) e m u h⟩

/-- Applying a list of insertional grouping functions never fails and never
unbinds a key. -/
theorem regroup_insertional
    (gs : List (Entity → GMap → Except String GMap))
    (hgs : ∀ g ∈ gs, Insertional g) (e : Entity) (m : GMap) :
    ∃ m', _regroup e m gs = .ok m' ∧ ∀ u, m u ≠ none → m' u ≠ none := by
  induction gs generalizing m with
  | nil => exact ⟨m, rfl, fun u h => h⟩
  | cons g gs ih =>
    obtain ⟨m1, hg, hk⟩ := hgs g (List.mem_cons_self _ _) e m
    obtain ⟨m', hr, hk'⟩ :=
      ih (fun g' hg' => hgs g' (List.mem_cons_of_mem _ hg')) m1
    refine ⟨m', ?_, fun u h => hk' u (hk u h)⟩
    rw [regroup_cons, hg]
    exact hr

/-- Running `addAll` over insertional groupings always succeeds, keeps the
grouping list, and the resulting deferred value forces to a mapping that
binds every key the starting mapping bound. -/
theorem addAll_insertional (es : List Entity)
    (s : EnergySystem Entity GMap) (m : GMap)
    (hgs : ∀ g ∈ s._groupings, Insertional g)
    (hf : s._groups.force = .ok m) :
    ∃ s' m', s.addAll es = .ok s' ∧ s'._groupings = s._groupings ∧
      s'._groups.force = .ok m' ∧ (∀ u, m u ≠ none → m' u ≠ none) := by
  induction es generalizing s m with
  | nil => exact ⟨s, m, rfl, rfl, hf, fun u h => h⟩
  | cons e es ih =>
    have hadd := add_of_force_ok s m e hf
    obtain ⟨m1, hr, hk⟩ := regroup_insertional s._groupings hgs e m
    obtain ⟨s', m', h1, h2, h3, h4⟩ :=
      ih ⟨s.entities ++ [e], .pending e m s._groupings, s._groupings⟩ m1
        hgs (by rw [force_pending]; exact hr)
    refine ⟨s', m', ?_, h2, h3, fun u h => h4 u (hk u h)⟩
    rw [addAll_cons, hadd]
    exact h1

/-- Decomposing `addAll` over a list append. -/
theorem addAll_append (s : EnergySystem E G) (es1 es2 : List E) :
    s.addAll (es1 ++ es2) = match s.addAll es1 with
      | .error msg => .error msg
      | .ok s' => s'.addAll es2 := by
  induction es1 generalizing s with
  | nil => rfl
  | cons a es1 ih =>
    rw [List.cons_append, addAll_cons, addAll_cons]
    cases hadd : s.add a with
    | error msg => rfl
    | ok s1 => exact ih s1

/-- A successful forcing makes a plain read return the forced mapping. -/
theorem readMap_force_ok (s : EnergySystem E G) (m : G)
    (h : s._groups.force = .ok m) : readMap s = .ok m := by
  unfold readMap
  rw [groups_of_force_ok s m h]

/-- `addAllThenRead` after a successful `addAll` is a plain read. -/
theorem addAllThenRead_of_addAll_ok (s s' : EnergySystem E G) (es : List E)
    (h : s.addAll es = .ok s') : addAllThenRead s es = readMap s' := by
  unfold addAllThenRead
  rw [h]

/-- C8: (1) construction with no initial entities creates the group
mapping empty, in the MATERIALIZED state; (2) `add` mutates the container
only by appending the entity and replacing the `_groups` value with a new
pending computation (the grouping list is untouched, and the wrapped value
is the forced old mapping); (3) with the default uid grouping and any
`Nodes`-wrapped user groupings, a key bound in the mapping read after some
additions is still bound after any further addition — nothing is ever
deleted. -/
theorem group_mapping_grows_only (fs : List (Entity → List Nat))
    (es : List Entity) (e : Entity) :
    EnergySystem.init ([] : List Entity) (rawGroupings fs) gEmpty =
      .ok ⟨[], .materialized gEmpty, rawGroupings fs⟩ ∧
    (∀ (E' G' : Type) (s s2 : EnergySystem E' G') (a : E'),
      s.add a = .ok s2 →
      ∃ mm, s._groups.force = .ok mm ∧
        s2 = ⟨s.entities ++ [a], .pending a mm s._groupings,
              s._groupings⟩) ∧
    (∃ m m',
      addAllThenRead ⟨[], .materialized gEmpty, rawGroupings fs⟩ es =
        .ok m ∧
      addAllThenRead ⟨[], .materialized gEmpty, rawGroupings fs⟩
        (es ++ [e]) = .ok m' ∧
      ∀ u, m u ≠ none → m' u ≠ none) := by
  have hins : ∀ g ∈ rawGroupings fs, Insertional g := by
    intro g hg
    rw [rawGroupings, configure] at hg
    rcases List.mem_cons.mp hg with h | h
    · subst h
      exact byUid_insertional
    · obtain ⟨inp, hinp, rfl⟩ := List.mem_map.mp h
      obtain ⟨f, _, rfl⟩ := List.mem_map.mp hinp
      exact nodesWrap_insertional f
  refine ⟨rfl, ?_, ?_⟩
  · intro E' G' s s2 a hadd
    cases hf : s._groups.force with
    | error msg =>
      rw [add_of_force_error s msg a hf] at hadd
      cases hadd
    | ok mm =>
      rw [add_of_force_ok s mm a hf] at hadd
      cases hadd
      exact ⟨mm, rfl, rfl⟩
  · obtain ⟨s', m1, h1, h2, h3, _⟩ := addAll_insertional es
      ⟨[], .materialized gEmpty, rawGroupings fs⟩ gEmpty hins rfl
    obtain ⟨m2, hr2, hk2⟩ := regroup_insertional (rawGroupings fs) hins e m1
    have hadd2 := add_of_force_ok s' m1 e h3
    have haddAll2 : EnergySystem.addAll
        ⟨[], .materialized gEmpty, rawGroupings fs⟩ (es ++ [e]) =
        .ok ⟨s'.entities ++ [e], .pending e m1 s'._groupings,
             s'._groupings⟩ := by
      rw [addAll_append, h1]
      show s'.addAll [e] = _
      rw [addAll_cons, hadd2]
      exact addAll_nil _
    have hf2 : (GroupsVal.pending e m1 s'._groupings).force = .ok m2 := by
      rw [force_pending, h2]
      exact hr2
    refine ⟨m1, m2, ?_, ?_, hk2⟩
    · rw [addAllThenRead_of_addAll_ok _ s' es h1]
      exact readMap_force_ok s' m1 h3
    · rw [addAllThenRead_of_addAll_ok _ _ (es ++ [e]) haddAll2]
      exact readMap_force_ok _ m2 hf2

/-- Witness for C8 on one raw grouping and concrete entities: uid key `5`
bound after the first addition stays bound after the second. -/
theorem group_mapping_grows_only_witness :
    ∃ m m',
      addAllThenRead ⟨[], .materialized gEmpty,
        rawGroupings [fun x => [x.uid + 100]]⟩ [⟨0, 5⟩] = .ok m ∧
      addAllThenRead ⟨[], .materialized gEmpty,
        rawGroupings [fun x => [x.uid + 100]]⟩ ([⟨0, 5⟩] ++ [⟨1, 7⟩]) =
        .ok m' ∧
      m 5 ≠ none ∧ m' 5 ≠ none := by
  obtain ⟨_, _, m, m', h1, h2, hmono⟩ := group_mapping_grows_only
    [fun x => [x.uid + 100]] [⟨0, 5⟩] ⟨1, 7⟩
  have hcomp : addAllThenRead ⟨[], .materialized gEmpty,
      rawGroupings [fun x => [x.uid + 100]]⟩ [(⟨0, 5⟩ : Entity)] =
      .ok (gUpdate (gUpdate gEmpty 5 (.single ⟨0, 5⟩)) 105
        (.many [⟨0, 5⟩])) := rfl
  have hm : gUpdate (gUpdate gEmpty 5 (.single ⟨0, 5⟩)) 105
      (.many [⟨0, 5⟩]) = m := Except.ok.inj (hcomp.symm.trans h1)
  have hm5 : m 5 ≠ none := by
    rw [← hm]
    simp [gUpdate]
  exact ⟨m, m', h1, h2, hm5, hmono 5 hm5⟩

end Oemof
